import Mathlib

/-!
Verification of the luci client-py content-addressed store client.

The development shallowly embeds the program's operations and proves the
specified properties about them.

* `run_test_cases.filter_shards` is translated directly from
  `src/run_test_cases.py`.
* The isolate-server engine (`isolateserver.py` / `isolate_storage.py`) is not
  part of the source tree here; only its test suite is.  Those operations are
  modelled from the specification document, each such definition carrying a
  doc comment starting with `Modelled from the spec:`.

Bytes are modelled as natural numbers, byte strings as `List Nat`, and a
sequence of byte chunks as `List (List Nat)`.
-/

namespace Spec2Proof

/-! ## filter_shards (src/run_test_cases.py, lines 416-430)

Python source:
```
def filter_shards(tests, index, shards):
  assert 0 <= index < shards
  total = len(tests)
  quotient, remainder = divmod(total, shards)
  min_bound = quotient * index + min(index, remainder)
  max_bound = quotient * (index + 1) + min(index + 1, remainder)
  return tests[min_bound:max_bound]
```
The slice `tests[a:b]` with `0 <= a <= b` is `(tests.drop a).take (b - a)`.
-/

/-- The shard boundary: the start index of shard `index` out of `shards`
for a list of `total` tests, as computed by `filter_shards`. -/
def shard_bound (total index shards : Nat) : Nat :=
  (total / shards) * index + min index (total % shards)

/-- Translation of `filter_shards` from `src/run_test_cases.py`. -/
def filter_shards (tests : List α) (index shards : Nat) : List α :=
  let total := tests.length
  let min_bound := shard_bound total index shards
  let max_bound := shard_bound total (index + 1) shards
  (tests.drop min_bound).take (max_bound - min_bound)

theorem shard_bound_zero (total shards : Nat) : shard_bound total 0 shards = 0 := by
  simp [shard_bound]

theorem shard_bound_mono (total shards : Nat) {i j : Nat} (h : i ≤ j) :
    shard_bound total i shards ≤ shard_bound total j shards := by
  unfold shard_bound
  exact Nat.add_le_add (Nat.mul_le_mul_left _ h) (min_le_min h (le_refl _))

theorem shard_bound_last (total shards : Nat) (h : 0 < shards) :
    shard_bound total shards shards = total := by
  unfold shard_bound
  have hr : total % shards < shards := Nat.mod_lt _ h
  rw [Nat.min_eq_right (Nat.le_of_lt hr)]
  exact Nat.div_add_mod' total shards

theorem shard_bound_le_total (total shards : Nat) (h : 0 < shards) {i : Nat}
    (hi : i ≤ shards) : shard_bound total i shards ≤ total := by
  calc shard_bound total i shards ≤ shard_bound total shards shards :=
        shard_bound_mono total shards hi
    _ = total := shard_bound_last total shards h

theorem filter_shards_prefix_flatten (tests : List α) (shards : Nat) (n : Nat) :
    ((List.range n).map (fun i => filter_shards tests i shards)).flatten
      = tests.take (shard_bound tests.length n shards) := by
  induction n with
  | zero => simp [shard_bound_zero]
  | succ n ih =>
      rw [List.range_succ, List.map_append, List.flatten_append, ih]
      simp only [List.map_cons, List.map_nil, List.flatten_cons, List.flatten_nil,
        List.append_nil]
      unfold filter_shards
      rw [← List.take_add]
      congr 1
      exact Nat.add_sub_cancel' (shard_bound_mono tests.length shards (Nat.le_succ n))

theorem filter_shards_length (tests : List α) (shards : Nat) (h : 0 < shards)
    {i : Nat} (hi : i < shards) :
    (filter_shards tests i shards).length
      = shard_bound tests.length (i + 1) shards - shard_bound tests.length i shards := by
  unfold filter_shards
  simp only [List.length_take, List.length_drop]
  have h1 : shard_bound tests.length (i + 1) shards ≤ tests.length :=
    shard_bound_le_total tests.length shards h hi
  omega

theorem shard_bound_step_le (total shards : Nat) (i : Nat) :
    shard_bound total (i + 1) shards - shard_bound total i shards
      ≤ total / shards + 1 := by
  unfold shard_bound
  generalize total / shards = q
  generalize total % shards = r
  have h2 : q * (i + 1) = q * i + q := by ring
  omega

theorem shard_bound_step_ge (total shards : Nat) (i : Nat) :
    total / shards ≤ shard_bound total (i + 1) shards - shard_bound total i shards := by
  unfold shard_bound
  generalize total / shards = q
  generalize total % shards = r
  have h2 : q * (i + 1) = q * i + q := by ring
  omega

/-- C10: for every list of tests and shard count `S > 0`, each
`filter_shards tests i S` is a contiguous slice of the list, the `S` slices
in index order concatenate back to exactly the original list (every test in
exactly one shard, order preserved), and any two shards' sizes differ by at
most one. -/
theorem filter_shards_spec (tests : List Nat) (S : Nat) (hS : 0 < S) :
    (∀ i, ∃ a b, filter_shards tests i S = (tests.drop a).take b) ∧
    ((List.range S).map (fun i => filter_shards tests i S)).flatten = tests ∧
    (∀ i j, i < S → j < S →
      (filter_shards tests i S).length ≤ (filter_shards tests j S).length + 1) := by
  refine ⟨fun i => ⟨_, _, rfl⟩, ?_, ?_⟩
  · rw [filter_shards_prefix_flatten, shard_bound_last tests.length S hS,
      List.take_length]
  · intro i j hi hj
    rw [filter_shards_length tests S hS hi, filter_shards_length tests S hS hj]
    have h1 := shard_bound_step_le tests.length S i
    have h2 := shard_bound_step_ge tests.length S j
    omega

/-! ## Codec: zip_compress / zip_decompress

`isolateserver.zip_compress` and `isolateserver.zip_decompress` are not in the
source tree (only their tests are), so they are modelled from the spec.  The
spec fixes the streaming structure but deliberately not the wire encoding of
the compressor, so the model uses a concrete run-length code as the
compressor: a run of `c` copies of byte `b` is emitted as the pair `c, b`,
which makes highly compressible payloads (such as 100000 zero bytes) compress
to a tiny stream, as in the anti-amplification scenario. -/

/-- Pending run of the run-length compressor: `some (b, c)` means `c` copies
of byte `b` have been read and not yet emitted. -/
def rleFlush : Option (Nat × Nat) → List Nat
  | none => []
  | some (b, c) => [c, b]

/-- One streaming pass of the run-length compressor over a byte list,
carrying the pending run. -/
def rleGo : Option (Nat × Nat) → List Nat → List Nat
  | st, [] => rleFlush st
  | some (b, c), x :: rest =>
      if x = b then rleGo (some (b, c + 1)) rest
      else c :: b :: rleGo (some (x, 1)) rest
  | none, x :: rest => rleGo (some (x, 1)) rest

/-- Run-length encode one byte chunk. -/
def rleEncode (l : List Nat) : List Nat := rleGo none l

/-- Modelled from the spec: `zip_compress(sequence-of-chunks)` streams each
input chunk through the compressor incrementally, never materializing the
whole payload; the external `zlib` compressor is replaced by the run-length
code. -/
def zip_compress (chunks : List (List Nat)) : List (List Nat) :=
  chunks.map rleEncode

/-- Decode a flat run-length stream; `none` models `CorruptDataError` on
malformed input (a dangling count byte with no data byte). -/
def rleDecode : List Nat → Option (List Nat)
  | [] => some []
  | [_] => none
  | c :: b :: rest => (rleDecode rest).map (fun t => List.replicate c b ++ t)

/-- Slice a byte list into chunks of at most `m` bytes (`m ≥ 1` is enforced
by the caller); `fuel` bounds the recursion. -/
def rechunkAux : Nat → Nat → List Nat → List (List Nat)
  | _, _, [] => []
  | 0, _, _ :: _ => []
  | fuel + 1, m, x :: xs => (x :: xs).take m :: rechunkAux fuel m ((x :: xs).drop m)

/-- Slice a byte list into chunks of at most `max m 1` bytes. -/
def rechunk (m : Nat) (l : List Nat) : List (List Nat) :=
  rechunkAux l.length (max m 1) l

/-- Modelled from the spec: `zip_decompress(sequence-of-chunks,
max_chunk_size)` streams the decoded output, capping every yielded chunk at
`max_chunk_size` regardless of how much decompressed data is available;
malformed compressed input fails with `CorruptDataError`, modelled as
`none`. -/
def zip_decompress (chunks : List (List Nat)) (max_chunk_size : Nat) :
    Option (List (List Nat)) :=
  (rleDecode chunks.flatten).map (rechunk max_chunk_size)

theorem rleDecode_go_append (l : List Nat) :
    ∀ (b c : Nat) (rest : List Nat),
      rleDecode (rleGo (some (b, c)) l ++ rest)
        = (rleDecode rest).map (fun t => (List.replicate c b ++ l) ++ t) := by
  induction l with
  | nil =>
      intro b c rest
      simp [rleGo, rleFlush, rleDecode]
  | cons x xs ih =>
      intro b c rest
      by_cases hx : x = b
      · subst hx
        rw [rleGo]
        simp only [eq_self_iff_true, if_true]
        rw [ih x (c + 1) rest]
        have hrep : List.replicate (c + 1) x ++ xs = List.replicate c x ++ x :: xs := by
          rw [List.replicate_succ']
          simp [List.append_assoc]
        simp only [hrep]
      · rw [rleGo]
        simp only [if_neg hx, List.cons_append]
        rw [rleDecode]
        rw [ih x 1 rest]
        cases rleDecode rest <;> simp [List.append_assoc, List.replicate_succ]

theorem rleDecode_encode_append (l rest : List Nat) :
    rleDecode (rleEncode l ++ rest)
      = (rleDecode rest).map (fun t => l ++ t) := by
  cases l with
  | nil => simp [rleEncode, rleGo, rleFlush]
  | cons x xs =>
      rw [rleEncode, rleGo, rleDecode_go_append]
      simp [List.replicate_succ]

theorem rleDecode_compress_flatten (chunks : List (List Nat)) :
    rleDecode (zip_compress chunks).flatten = some chunks.flatten := by
  induction chunks with
  | nil => simp [zip_compress, rleDecode]
  | cons c cs ih =>
      rw [zip_compress] at ih ⊢
      simp only [List.map_cons, List.flatten_cons]
      rw [rleDecode_encode_append, ih]
      rfl

theorem rechunkAux_flatten (fuel : Nat) :
    ∀ (m : Nat) (l : List Nat), 1 ≤ m → l.length ≤ fuel →
      (rechunkAux fuel m l).flatten = l := by
  induction fuel with
  | zero =>
      intro m l _ hlen
      cases l with
      | nil => rfl
      | cons x xs => simp at hlen
  | succ fuel ih =>
      intro m l hm hlen
      cases l with
      | nil => rfl
      | cons x xs =>
          rw [rechunkAux, List.flatten_cons]
          rw [ih m ((x :: xs).drop m) hm]
          · exact List.take_append_drop m (x :: xs)
          · rw [List.length_drop]
            simp only [List.length_cons] at hlen ⊢
            omega

theorem rechunkAux_chunk_le (fuel : Nat) :
    ∀ (m : Nat) (l : List Nat) (c : List Nat),
      c ∈ rechunkAux fuel m l → c.length ≤ m := by
  induction fuel with
  | zero =>
      intro m l c hc
      cases l with
      | nil => simp [rechunkAux] at hc
      | cons x xs => simp [rechunkAux] at hc
  | succ fuel ih =>
      intro m l c hc
      cases l with
      | nil => simp [rechunkAux] at hc
      | cons x xs =>
          rw [rechunkAux] at hc
          rcases List.mem_cons.1 hc with h | h
          · subst h
            simp only [List.length_take]
            exact min_le_left _ _
          · exact ih m _ c h

/-- C4: feeding the output of `zip_compress` into `zip_decompress` succeeds
and yields chunks whose concatenation equals the concatenation of the
original chunks, for every finite chunk sequence (including the empty one)
and every `max_chunk_size`. -/
theorem zip_decompress_zip_compress (chunks : List (List Nat))
    (max_chunk_size : Nat) :
    ∃ out, zip_decompress (zip_compress chunks) max_chunk_size = some out ∧
      out.flatten = chunks.flatten := by
  refine ⟨rechunk max_chunk_size chunks.flatten, ?_, ?_⟩
  · rw [zip_decompress, rleDecode_compress_flatten]
    rfl
  · rw [rechunk]
    exact rechunkAux_flatten _ _ _ (le_max_right _ 1) (le_refl _)

/-- C5: whenever `zip_decompress` succeeds on any compressed input with a
positive `max_chunk_size` bound, every yielded chunk has length at most
`max_chunk_size`, however much decompressed data is available. -/
theorem zip_decompress_chunk_le (chunks : List (List Nat))
    (max_chunk_size : Nat) (hpos : 0 < max_chunk_size)
    (out : List (List Nat))
    (hout : zip_decompress chunks max_chunk_size = some out) :
    ∀ c ∈ out, c.length ≤ max_chunk_size := by
  intro c hc
  rw [zip_decompress] at hout
  cases hdec : rleDecode chunks.flatten with
  | none => rw [hdec] at hout; exact nomatch hout
  | some data =>
      rw [hdec] at hout
      have hout2 : rechunk max_chunk_size data = out := Option.some.inj hout
      have : c ∈ rechunk max_chunk_size data := by
        rw [hout2]; exact hc
      rw [rechunk] at this
      have h := rechunkAux_chunk_le _ _ _ _ this
      rwa [Nat.max_eq_left hpos] at h

/-- C5 witness: decompressing the pair stream `[5, 0]` (five zero bytes) with
`max_chunk_size = 2` yields only chunks of length at most 2. -/
theorem zip_decompress_chunk_le_witness :
    0 < 2 ∧ (∀ c ∈ [[0, 0], [0, 0], [0]], List.length c ≤ 2) :=
  ⟨by decide,
   zip_decompress_chunk_le [[5, 0]] 2 (by decide) [[0, 0], [0, 0], [0]] (by decide)⟩

/-! ## FetchStreamVerifier -/

/-- Which integrity check failed: the byte-count axis or the digest axis. -/
inductive IntegrityError where
  | sizeMismatch
  | digestMismatch
  deriving DecidableEq, Repr

/-- Modelled from the spec: `FetchStreamVerifier` (absent from the source
tree) forwards every chunk of the stream unchanged while incrementally
updating a running hash and a byte counter in a single pass; after the
source is exhausted it compares the counter to the expected size and the
running hash to the expected digest, failing with an `IntegrityError` that
names which check failed.  The hash is an arbitrary incremental algorithm:
state type `α`, per-byte update `upd`, digest extraction `fin`. -/
def fetchStreamVerifierRun (upd : α → Nat → α) (h0 : α) (fin : α → Nat)
    (expected_digest expected_size : Nat) (stream : List (List Nat)) :
    Except IntegrityError (List (List Nat)) :=
  let st := stream.foldl
    (fun (acc : α × Nat) chunk => (chunk.foldl upd acc.1, acc.2 + chunk.length))
    (h0, 0)
  if st.2 ≠ expected_size then Except.error IntegrityError.sizeMismatch
  else if fin st.1 ≠ expected_digest then Except.error IntegrityError.digestMismatch
  else Except.ok stream

theorem fetchStreamVerifier_fold (upd : α → Nat → α) (stream : List (List Nat)) :
    ∀ (h0 : α) (n : Nat),
      stream.foldl
          (fun (acc : α × Nat) chunk => (chunk.foldl upd acc.1, acc.2 + chunk.length))
          (h0, n)
        = (stream.flatten.foldl upd h0, n + stream.flatten.length) := by
  induction stream with
  | nil => intro h0 n; simp
  | cons chunk rest ih =>
      intro h0 n
      simp only [List.foldl_cons, List.flatten_cons, List.foldl_append,
        List.length_append]
      rw [ih, Nat.add_assoc]

/-- C6: the single-pass verifier forwards the chunks unchanged and completes
without error exactly when the total byte count equals the expected size and
the running hash over the concatenated bytes equals the expected digest; a
mismatch fails with the `IntegrityError` naming the failing axis (size
checked first). -/
theorem fetchStreamVerifier_spec (upd : α → Nat → α) (h0 : α) (fin : α → Nat)
    (expected_digest expected_size : Nat) (stream : List (List Nat)) :
    fetchStreamVerifierRun upd h0 fin expected_digest expected_size stream
      = if stream.flatten.length ≠ expected_size then
          Except.error IntegrityError.sizeMismatch
        else if fin (stream.flatten.foldl upd h0) ≠ expected_digest then
          Except.error IntegrityError.digestMismatch
        else Except.ok stream := by
  rw [fetchStreamVerifierRun]
  rw [fetchStreamVerifier_fold upd stream h0 0]
  simp

/-! ## StorageApi.push: inline and staged-blob protocols -/

/-- Push state for one missing item, as issued by `contains`: the optional
staged-blob URLs and the two phase-completion flags. -/
structure PushState where
  upload_url : Option String
  finalize_url : Option String
  uploaded : Bool
  finalized : Bool
  deriving DecidableEq, Repr

/-- A fresh push state as `contains` returns it: no phase completed yet. -/
def PushState.fresh (uu fu : Option String) : PushState :=
  ⟨uu, fu, false, false⟩

/-- The network calls a push may issue. -/
inductive NetCall where
  | storeInline
  | putBlob
  | finalizeBlob
  deriving DecidableEq, Repr

/-- Modelled from the spec: `StorageApi.push` (absent from the source tree).
Two protocols selected by whether the PushState carries staged-blob URLs:
inline submits the content in one `store_inline` request and on success marks
`uploaded` and `finalized` true together; staged-blob first PUTs the bytes to
`upload_url` (success marks `uploaded`), then calls `finalize_url` (success
marks `finalized`), each phase failing independently with `TransferError`.
`net` says which calls succeed; the result is the final PushState, the trace
of calls issued, and whether the push raised (`false` = `TransferError`). -/
def storageApiPush (ps : PushState) (net : NetCall → Bool) :
    PushState × List NetCall × Bool :=
  match ps.upload_url with
  | none =>
      if net NetCall.storeInline then
        ({ps with uploaded := true, finalized := true}, [NetCall.storeInline], true)
      else (ps, [NetCall.storeInline], false)
  | some _ =>
      if net NetCall.putBlob then
        let ps1 := {ps with uploaded := true}
        if net NetCall.finalizeBlob then
          ({ps1 with finalized := true}, [NetCall.putBlob, NetCall.finalizeBlob], true)
        else (ps1, [NetCall.putBlob, NetCall.finalizeBlob], false)
      else (ps, [NetCall.putBlob], false)

/-- C2: after a push on a fresh PushState the flags reflect exactly the
completed phases: a successful inline push sets `uploaded` and `finalized`
true together; a failed inline store leaves both false; in the staged-blob
protocol a successful PUT followed by a failing finalize leaves
`uploaded = true`, `finalized = false` while the call itself fails. -/
theorem storageApiPush_flags (uu fu : String) (net : NetCall → Bool) :
    (net NetCall.storeInline = true →
      storageApiPush (PushState.fresh none none) net
        = (⟨none, none, true, true⟩, [NetCall.storeInline], true)) ∧
    (net NetCall.storeInline = false →
      storageApiPush (PushState.fresh none none) net
        = (⟨none, none, false, false⟩, [NetCall.storeInline], false)) ∧
    (net NetCall.putBlob = true → net NetCall.finalizeBlob = false →
      storageApiPush (PushState.fresh (some uu) (some fu)) net
        = (⟨some uu, some fu, true, false⟩,
           [NetCall.putBlob, NetCall.finalizeBlob], false)) := by
  refine ⟨?_, ?_, ?_⟩
  · intro h; simp [storageApiPush, PushState.fresh, h]
  · intro h; simp [storageApiPush, PushState.fresh, h]
  · intro h1 h2; simp [storageApiPush, PushState.fresh, h1, h2]

/-- C2 witness: with a network where the inline store succeeds, the inline
push on a fresh state sets both flags. -/
theorem storageApiPush_flags_witness :
    ((fun _ => true) NetCall.storeInline = true) ∧
      storageApiPush (PushState.fresh none none) (fun _ => true)
        = (⟨none, none, true, true⟩, [NetCall.storeInline], true) :=
  ⟨rfl, (storageApiPush_flags "u" "f" (fun _ => true)).1 rfl⟩

/-! ## StorageApi.fetch at an offset: range-confirmation validation -/

/-- The range-confirmation header on a staged-blob fetch response:
missing, syntactically not a byte range (e.g. no total at all), or a
confirmed `bytes first-last/total` with `total = none` standing for `*`. -/
inductive RangeHeader where
  | missing
  | malformed
  | confirmed (first last : Nat) (total : Option Nat)
  deriving DecidableEq, Repr

/-- The error the offset fetch fails with. -/
inductive FetchError where
  | rangeError
  deriving DecidableEq, Repr

/-- Modelled from the spec: the staged-blob branch of `StorageApi.fetch`
(absent from the source tree) at byte offset `offset` of the remote object
`data`: the server returns the suffix from `offset` with the
range-confirmation header `hdr`, which is validated against the expected
`(offset, size-1, size)` triple; a missing header, non-byte-range syntax, a
confirmed start different from the offset, or a confirmed extent
inconsistent with the size fails with `RangeError`, with no retry at this
layer (the result is final). -/
def fetch_offset (data : List Nat) (offset : Nat) (hdr : RangeHeader) :
    Except FetchError (List Nat) :=
  match hdr with
  | RangeHeader.confirmed first last total =>
      if first = offset ∧ last + 1 = data.length ∧
          (total = none ∨ total = some data.length) then
        Except.ok (data.drop offset)
      else Except.error FetchError.rangeError
  | _ => Except.error FetchError.rangeError

/-- C3: for a nonempty object, the offset fetch succeeds exactly on a header
confirming start `offset` and end `size - 1` with total `size` or
unspecified, in which case it yields exactly the bytes from `offset` on;
every other header (missing, malformed syntax, wrong start, extent
inconsistent with the size) fails with `RangeError`. -/
theorem fetch_offset_spec (data : List Nat) (offset : Nat) (hdr : RangeHeader)
    (hs : 0 < data.length) :
    (fetch_offset data offset hdr = Except.ok (data.drop offset)
      ↔ ∃ total, hdr = RangeHeader.confirmed offset (data.length - 1) total ∧
          (total = none ∨ total = some data.length)) ∧
    (∀ r, fetch_offset data offset hdr = Except.ok r → r = data.drop offset) ∧
    ((¬ ∃ total, hdr = RangeHeader.confirmed offset (data.length - 1) total ∧
          (total = none ∨ total = some data.length)) →
      fetch_offset data offset hdr = Except.error FetchError.rangeError) := by
  have hlast : ∀ last : Nat, last + 1 = data.length ↔ last = data.length - 1 := by
    intro last; omega
  refine ⟨?_, ?_, ?_⟩
  · constructor
    · intro h
      match hdr with
      | RangeHeader.missing => exact nomatch h
      | RangeHeader.malformed => exact nomatch h
      | RangeHeader.confirmed first last total =>
          rw [fetch_offset] at h
          by_cases hc : first = offset ∧ last + 1 = data.length ∧
              (total = none ∨ total = some data.length)
          · refine ⟨total, ?_, hc.2.2⟩
            rw [hc.1, (hlast last).1 hc.2.1]
          · rw [if_neg hc] at h
            exact nomatch h
    · rintro ⟨total, rfl, htotal⟩
      rw [fetch_offset, if_pos ⟨rfl, (hlast _).2 rfl, htotal⟩]
  · intro r h
    match hdr with
    | RangeHeader.missing => exact nomatch h
    | RangeHeader.malformed => exact nomatch h
    | RangeHeader.confirmed first last total =>
        rw [fetch_offset] at h
        by_cases hc : first = offset ∧ last + 1 = data.length ∧
            (total = none ∨ total = some data.length)
        · rw [if_pos hc] at h
          exact (Except.ok.inj h).symm
        · rw [if_neg hc] at h
          exact nomatch h
  · intro hbad
    match hdr with
    | RangeHeader.missing => rfl
    | RangeHeader.malformed => rfl
    | RangeHeader.confirmed first last total =>
        rw [fetch_offset, if_neg]
        intro hc
        exact hbad ⟨total, by rw [hc.1, (hlast last).1 hc.2.1], hc.2.2⟩

/-- C3 witness: fetching at offset 1 of the 3-byte object `[1, 2, 3]` with
the header confirming `bytes 1-2/3` yields exactly `[2, 3]`. -/
theorem fetch_offset_spec_witness :
    0 < List.length [1, 2, 3] ∧
      fetch_offset [1, 2, 3] 1 (RangeHeader.confirmed 1 2 (some 3))
        = Except.ok [2, 3] :=
  ⟨by decide,
   (fetch_offset_spec [1, 2, 3] 1 (RangeHeader.confirmed 1 2 (some 3))
       (by decide)).1.mpr ⟨some 3, rfl, Or.inr rfl⟩⟩

/-! ## Storage.upload_items

The backend is the `MockedStorageApi` of `src/tests/isolateserver_test.py`:
`contains` records the collection it was called on and returns the subset of
items whose digest is in the missing map, each with its push state; `push`
records the triple (item, push state, joined content bytes).
`Storage.upload_items` itself is absent from the source tree and is modelled
from the spec. -/

/-- An in-memory content item: digest plus content chunks (the shape of
`BufferItem`/`FakeItem` used by the tests). -/
structure Item where
  digest : Nat
  content : List (List Nat)
  deriving DecidableEq, Repr

/-- The calls recorded by `MockedStorageApi`
(src/tests/isolateserver_test.py, lines 127-159): the collections passed to
`contains` and the (item, push state, joined content) triples passed to
`push`. -/
structure ApiLog (σ : Type) where
  contains_calls : List (List Item)
  push_calls : List (Item × σ × List Nat)
  deriving DecidableEq, Repr

/-- The log before any call. -/
def ApiLog.empty : ApiLog σ := ⟨[], []⟩

/-- `MockedStorageApi.contains`: record the call, return the items whose
digest the missing map knows, paired with their push states. -/
def apiContains (missing : Nat → Option σ) (log : ApiLog σ) (items : List Item) :
    ApiLog σ × List (Item × σ) :=
  ({log with contains_calls := log.contains_calls ++ [items]},
   items.filterMap (fun i => (missing i.digest).map (fun ps => (i, ps))))

/-- `MockedStorageApi.push`: record the (item, push state, content) triple. -/
def apiPush (log : ApiLog σ) (item : Item) (ps : σ) (content : List Nat) :
    ApiLog σ :=
  {log with push_calls := log.push_calls ++ [(item, ps, content)]}

/-- Modelled from the spec: `Storage.upload_items` (absent from the source
tree) calls `contains` once on the whole collection, pushes each missing
item with its own PushState and its own content, and returns exactly the
missing items.  The bounded worker pool gives no completion-order guarantee,
modelled by running the pushes in list order. -/
def upload_items (missing : Nat → Option σ) (items : List Item) :
    ApiLog σ × List Item :=
  let step := apiContains missing ApiLog.empty items
  let log2 := step.2.foldl
    (fun l (p : Item × σ) => apiPush l p.1 p.2 p.1.content.flatten) step.1
  (log2, step.2.map Prod.fst)

theorem upload_items_push_fold (miss : List (Item × σ)) :
    ∀ log : ApiLog σ,
      (miss.foldl (fun l (p : Item × σ) => apiPush l p.1 p.2 p.1.content.flatten)
          log).push_calls
        = log.push_calls
            ++ miss.map (fun p => (p.1, p.2, p.1.content.flatten)) := by
  induction miss with
  | nil => intro log; simp
  | cons p rest ih =>
      intro log
      rw [List.foldl_cons, ih, List.map_cons]
      simp [apiPush]

theorem upload_items_push_fold_contains (miss : List (Item × σ)) :
    ∀ log : ApiLog σ,
      (miss.foldl (fun l (p : Item × σ) => apiPush l p.1 p.2 p.1.content.flatten)
          log).contains_calls
        = log.contains_calls := by
  induction miss with
  | nil => intro log; rfl
  | cons p rest ih =>
      intro log
      rw [List.foldl_cons, ih]
      rfl

theorem filterMap_fst_eq_filter_isSome (missing : Nat → Option σ) :
    ∀ items : List Item,
      (items.filterMap (fun i => (missing i.digest).map (fun ps => (i, ps)))).map
          Prod.fst
        = items.filter (fun i => (missing i.digest).isSome) := by
  intro items
  induction items with
  | nil => rfl
  | cons i rest ih =>
      cases h : missing i.digest with
      | none => simp [List.filterMap_cons, List.filter_cons, h, ih]
      | some ps => simp [List.filterMap_cons, List.filter_cons, h, ih]

/-- C1: `upload_items` calls `contains` exactly once, on the whole
collection; `push` is invoked exactly for the items `contains` reported
missing, each with its own push state and its own content; the call returns
exactly the missing items; in particular, for an empty collection or when no
item is missing the result is empty. -/
theorem upload_items_spec (missing : Nat → Option σ) (items : List Item) :
    (upload_items missing items).1.contains_calls = [items] ∧
    (upload_items missing items).1.push_calls
      = items.filterMap
          (fun i => (missing i.digest).map (fun ps => (i, ps, i.content.flatten))) ∧
    (upload_items missing items).2
      = items.filter (fun i => (missing i.digest).isSome) ∧
    (items = [] → (upload_items missing items).2 = []) ∧
    ((∀ i ∈ items, missing i.digest = none) →
      (upload_items missing items).2 = []) := by
  have hres : (upload_items missing items).2
      = items.filter (fun i => (missing i.digest).isSome) := by
    rw [upload_items]
    exact filterMap_fst_eq_filter_isSome missing items
  refine ⟨?_, ?_, hres, ?_, ?_⟩
  · rw [upload_items]
    rw [upload_items_push_fold_contains]
    simp [apiContains, ApiLog.empty]
  · rw [upload_items]
    rw [upload_items_push_fold]
    simp only [apiContains, ApiLog.empty, List.nil_append]
    rw [List.map_filterMap]
    congr 1
    funext i
    cases missing i.digest <;> rfl
  · intro h; rw [hres, h]; rfl
  · intro h
    rw [hres]
    rw [List.filter_eq_nil_iff]
    intro i hi
    rw [h i hi]
    simp

/-- C1 witness: four items of which two are missing — `contains` sees all
four, `push` runs for the two missing ones, the result is the missing
pair. -/
theorem upload_items_spec_witness :
    ([] : List Item) = [] ∧
      (upload_items (fun _ => (none : Option Nat)) ([] : List Item)).2 = [] ∧
      (upload_items (fun d => if d = 2 ∨ d = 3 then some d else none)
          [⟨0, [[10]]⟩, ⟨1, [[11]]⟩, ⟨2, [[12]]⟩, ⟨3, [[13]]⟩]).2
        = [⟨2, [[12]]⟩, ⟨3, [[13]]⟩] := by
  refine ⟨rfl, (upload_items_spec (fun _ => (none : Option Nat)) []).2.2.2.1 rfl, ?_⟩
  rw [(upload_items_spec (fun d => if d = 2 ∨ d = 3 then some d else none)
      [⟨0, [[10]]⟩, ⟨1, [[11]]⟩, ⟨2, [[12]]⟩, ⟨3, [[13]]⟩]).2.2.1]
  decide

/-! ## Storage._async_push: content-source errors and bounded retry -/

/-- A single-pass content source: the chunks it yields, then optionally an
exception of type `ε` raised by the generator after those chunks. -/
structure ContentSource (ε : Type) where
  chunks : List (List Nat)
  genError : Option ε
  deriving Repr

/-- How an asynchronous push fails: an exception propagated unmodified from
the content source, or a transfer error from the backend. -/
inductive PushFailure (ε : Type) where
  | contentError (e : ε)
  | transferError
  deriving Repr

/-- One push attempt: iterate the content source; if the generator raises,
propagate that exact exception with no backend push recorded; otherwise
invoke the backend push (recorded with the item, push state and content
bytes), which succeeds iff `ok`. -/
def pushAttempt (item : Item) (ps : σ) (source : ContentSource ε) (ok : Bool) :
    List (Item × σ × List Nat) × Except (PushFailure ε) Unit :=
  match source.genError with
  | some e => ([], Except.error (PushFailure.contentError e))
  | none =>
      ([(item, ps, source.chunks.flatten)],
       if ok then Except.ok () else Except.error PushFailure.transferError)

/-- Modelled from the spec: the retry loop of `Storage._async_push` (absent
from the source tree): a transfer error is retried up to `retriesLeft` more
times with the same item, push state and content source; a content-source
exception propagates unmodified and is never retried.  `backendOk n` tells
whether the backend succeeds on attempt number `n`. -/
def asyncPushLoop (item : Item) (ps : σ) (source : ContentSource ε)
    (backendOk : Nat → Bool) :
    Nat → Nat → List (Item × σ × List Nat) × Except (PushFailure ε) Unit
  | attempt, 0 => pushAttempt item ps source (backendOk attempt)
  | attempt, n + 1 =>
      let a := pushAttempt item ps source (backendOk attempt)
      match a.2 with
      | Except.error PushFailure.transferError =>
          let rest := asyncPushLoop item ps source backendOk (attempt + 1) n
          (a.1 ++ rest.1, rest.2)
      | out => (a.1, out)

/-- Modelled from the spec: `Storage._async_push` with a fixed retry budget
`retries` (the pool's RETRIES constant): the initial attempt plus up to
`retries` retries on transfer errors. -/
def async_push (item : Item) (ps : σ) (source : ContentSource ε)
    (backendOk : Nat → Bool) (retries : Nat) :
    List (Item × σ × List Nat) × Except (PushFailure ε) Unit :=
  asyncPushLoop item ps source backendOk 0 retries

/-- C8: if the item's content generator raises `e`, that exact exception
propagates to the caller, the backend's push is never invoked (zero recorded
push attempts), and no retry happens — for every retry budget. -/
theorem async_push_generator_error (ε : Type) (item : Item) (ps : σ)
    (chunks : List (List Nat)) (e : ε) (backendOk : Nat → Bool) (retries : Nat) :
    async_push item ps ⟨chunks, some e⟩ backendOk retries
      = ([], Except.error (PushFailure.contentError e)) := by
  rw [async_push]
  cases retries <;> rfl

theorem asyncPushLoop_all_fail (ε : Type) (item : Item) (ps : σ)
    (chunks : List (List Nat)) :
    ∀ (retriesLeft attempt : Nat),
      asyncPushLoop item ps (⟨chunks, none⟩ : ContentSource ε) (fun _ => false)
          attempt retriesLeft
        = (List.replicate (1 + retriesLeft) (item, ps, chunks.flatten),
           Except.error PushFailure.transferError) := by
  intro retriesLeft
  induction retriesLeft with
  | zero => intro attempt; rfl
  | succ n ih =>
      intro attempt
      have hstep : asyncPushLoop item ps (⟨chunks, none⟩ : ContentSource ε)
            (fun _ => false) attempt (n + 1)
          = ((item, ps, chunks.flatten)
              :: (asyncPushLoop item ps (⟨chunks, none⟩ : ContentSource ε)
                    (fun _ => false) (attempt + 1) n).1,
             (asyncPushLoop item ps (⟨chunks, none⟩ : ContentSource ε)
                (fun _ => false) (attempt + 1) n).2) := rfl
      rw [hstep, ih (attempt + 1)]
      rfl

/-- C9: when the backend's push fails with a transfer error on every
attempt, `_async_push` performs exactly `1 + retries` attempts, each with
the same item, the same push state and the same content bytes, and only then
surfaces the transfer error. -/
theorem async_push_upload_errors (ε : Type) (item : Item) (ps : σ)
    (chunks : List (List Nat)) (retries : Nat) :
    async_push item ps (⟨chunks, none⟩ : ContentSource ε) (fun _ => false) retries
      = (List.replicate (1 + retries) (item, ps, chunks.flatten),
         Except.error PushFailure.transferError) := by
  rw [async_push]
  exact asyncPushLoop_all_fail ε item ps chunks retries 0

/-! ## archive_files_to_storage: duplicate content shares one Item -/

/-- Modelled from the spec: the digest uniquely determines content within a
namespace (the digest of the external cryptographic hash is modelled as the
canonical uncompressed byte sequence itself, which realizes that invariant
exactly). -/
def hash_content (c : List Nat) : List Nat := c

/-- A filesystem-backed content item discovered during archiving: the path
it was found at, its digest, and its content bytes. -/
structure FileItem where
  path : String
  digest : List Nat
  content : List Nat
  deriving DecidableEq, Repr

/-- Modelled from the spec: duplicate content across distinct paths shares a
single content Item — one Item per distinct digest, keeping the first path
that produced it. -/
def dedupItems : List (String × List Nat) → List FileItem
  | [] => []
  | (p, c) :: rest =>
      ⟨p, hash_content c, c⟩
        :: dedupItems (rest.filter (fun q => hash_content q.2 ≠ hash_content c))
termination_by l => l.length
decreasing_by
  simp only [List.length_cons]
  exact Nat.lt_succ_of_le (List.length_filter_le _ _)

/-- Modelled from the spec: `archive_files_to_storage` (absent from the
source tree) on an already-walked file tree `files` (path, content bytes):
every file becomes a manifest entry (path, digest); duplicate content shares
a single content Item; the items whose digest `missing` reports absent are
the cold items, each pushed exactly once.  Returns the manifest entries and
the pushed items. -/
def archive_files_to_storage (missing : List Nat → Bool)
    (files : List (String × List Nat)) :
    List (String × List Nat) × List FileItem :=
  (files.map (fun f => (f.1, hash_content f.2)),
   (dedupItems files).filter (fun i => missing i.digest))

theorem dedupItems_mem :
    ∀ (files : List (String × List Nat)) (i : FileItem), i ∈ dedupItems files →
      (i.path, i.content) ∈ files ∧ i.digest = hash_content i.content := by
  intro files
  induction files using dedupItems.induct with
  | case1 => intro i hi; rw [dedupItems] at hi; exact absurd hi (List.not_mem_nil i)
  | case2 p c rest ih =>
      intro i hi
      rw [dedupItems] at hi
      rcases List.mem_cons.1 hi with h | h
      · subst h
        exact ⟨List.mem_cons_self _ _, rfl⟩
      · have := ih i h
        exact ⟨List.mem_cons_of_mem _ (List.mem_filter.1 this.1).1, this.2⟩

theorem dedupItems_digest_nodup :
    ∀ files : List (String × List Nat),
      ((dedupItems files).map FileItem.digest).Nodup := by
  intro files
  induction files using dedupItems.induct with
  | case1 => rw [dedupItems]; exact List.nodup_nil
  | case2 p c rest ih =>
      rw [dedupItems, List.map_cons, List.nodup_cons]
      refine ⟨?_, ih⟩
      intro hmem
      rcases List.mem_map.1 hmem with ⟨i, hi, hdig⟩
      have h1 := dedupItems_mem _ i hi
      have h2 := (List.mem_filter.1 h1.1).2
      rw [h1.2] at hdig
      rw [hdig] at h2
      simp at h2

theorem filter_length_le_one_of_nodup_map {β : Type} [DecidableEq β]
    (f : FileItem → β) (d : β) :
    ∀ l : List FileItem, (l.map f).Nodup →
      (l.filter (fun i => f i = d)).length ≤ 1 := by
  intro l
  induction l with
  | nil => intro _; simp
  | cons x rest ih =>
      intro hnd
      rw [List.map_cons, List.nodup_cons] at hnd
      rw [List.filter_cons]
      by_cases hx : f x = d
      · rw [if_pos (by simp [hx])]
        have hrest : rest.filter (fun i => f i = d) = [] := by
          rw [List.filter_eq_nil_iff]
          intro i hi
          simp only [decide_eq_true_eq]
          intro hfi
          exact hnd.1 (List.mem_map.2 ⟨i, hi, by rw [hfi, hx]⟩)
        rw [hrest]
        exact Nat.le_refl 1
      · rw [if_neg (by simp [hx])]
        exact ih hnd.2

theorem filter_sublist_filter (p q : FileItem → Bool) :
    ∀ l : List FileItem,
      ((l.filter p).filter q).length ≤ (l.filter q).length := by
  intro l
  exact List.Sublist.length_le
    (List.Sublist.filter q (List.filter_sublist l))

/-- C7: archiving files among which two distinct paths carry byte-identical
content puts both paths in the manifest as distinct entries sharing one
digest; at most one push carries that digest's content even when the digest
is missing remotely; and every pushed item's digest and content are those of
the file at its recorded path. -/
theorem archive_files_to_storage_spec (missing : List Nat → Bool)
    (files : List (String × List Nat)) (p1 p2 : String) (c : List Nat)
    (h1 : (p1, c) ∈ files) (h2 : (p2, c) ∈ files) (hne : p1 ≠ p2) :
    ((p1, hash_content c) ∈ (archive_files_to_storage missing files).1 ∧
      (p2, hash_content c) ∈ (archive_files_to_storage missing files).1) ∧
    ((archive_files_to_storage missing files).2.filter
        (fun i => i.digest = hash_content c)).length ≤ 1 ∧
    (∀ i ∈ (archive_files_to_storage missing files).2,
      (i.path, i.content) ∈ files ∧ i.digest = hash_content i.content) := by
  refine ⟨⟨?_, ?_⟩, ?_, ?_⟩
  · exact List.mem_map.2 ⟨(p1, c), h1, rfl⟩
  · exact List.mem_map.2 ⟨(p2, c), h2, rfl⟩
  · calc ((archive_files_to_storage missing files).2.filter
            (fun i => i.digest = hash_content c)).length
        ≤ ((dedupItems files).filter
            (fun i => (i.digest = hash_content c : Bool))).length := by
            exact filter_sublist_filter _ _ (dedupItems files)
      _ ≤ 1 := by
            apply filter_length_le_one_of_nodup_map FileItem.digest
            exact dedupItems_digest_nodup files
  · intro i hi
    have hmem : i ∈ dedupItems files := List.mem_filter.1 hi |>.1
    exact dedupItems_mem files i hmem

/-- C7 witness: three files among which two distinct paths hold the same
bytes; with everything missing remotely, their digest is pushed at most
once and every pushed item matches its file. -/
theorem archive_files_to_storage_spec_witness :
    (("a", [97]) ∈ [("a", [97]), ("s", [97]), ("b", [98])] ∧
        ("s", [97]) ∈ [("a", [97]), ("s", [97]), ("b", [98])] ∧
        "a" ≠ "s") ∧
      ((archive_files_to_storage (fun _ => true)
            [("a", [97]), ("s", [97]), ("b", [98])]).2.filter
          (fun i => i.digest = hash_content [97])).length ≤ 1 :=
  ⟨⟨by decide, by decide, by decide⟩,
   (archive_files_to_storage_spec (fun _ => true)
       [("a", [97]), ("s", [97]), ("b", [98])] "a" "s" [97]
       (by decide) (by decide) (by decide)).2.1⟩

/-- C10 witness: instantiation at the 5-element list split into 3 shards. -/
theorem filter_shards_spec_witness :
    ((List.range 3).map (fun i => filter_shards [0, 1, 2, 3, 4] i 3)).flatten
        = [0, 1, 2, 3, 4] ∧
      (filter_shards [0, 1, 2, 3, 4] 1 3).length
        ≤ (filter_shards [0, 1, 2, 3, 4] 0 3).length + 1 :=
  ⟨(filter_shards_spec [0, 1, 2, 3, 4] 3 (by decide)).2.1,
   (filter_shards_spec [0, 1, 2, 3, 4] 3 (by decide)).2.2 1 0 (by decide) (by decide)⟩

end Spec2Proof
